import Mathlib

/-!
Verification of the capacity-constrained task assignment engine of a
housekeeping management app.  The definitions below are a shallow embedding
of `src/lib/data.ts` (the engine) and of the filter logic of
`src/app/tasks/page.tsx`.

Modelling conventions:
* JavaScript numbers holding hours (`timeEstimate`, `totalAssignedHours`)
  are modelled as `Int` (ideal arithmetic; the claims under scrutiny are
  about exact comparisons with the constant 8).
* The TS module keeps a `workers` array and a `workerMap` in lockstep
  (workers are only ever appended, and both structures are updated
  together); the model keeps the single list `workers`, and
  `workerMap.get id` is modelled as the first list entry whose `id`
  matches, which is the entry `Map.get` returns as long as ids are unique
  (they are: ids come from a monotone counter).
* In-place mutation of the object returned by `Array.find` /` Map.get` is
  modelled by replacing the first matching list entry (`updateFirst`).
* `throw new Error(...)` is modelled as `Except.error` with an error code
  naming the throw site; the error the spec calls `CapacityError` is
  `EngineError.capacityExceeded`, thrown at the `MAX_WORK_HOURS_PER_DAY`
  check.
* JS truthiness of `task.assignedTo : string | null` is `Option String`
  being `some s` with `s` nonempty.
* `new Date(str).getTime()` (used by the sort comparators) is modelled by
  an explicit parameter `dateTime : String → Int`; `new Date().toISOString()`
  for `createdAt` is an explicit `createdAt` argument.
* `Array.prototype.sort` with a comparator is, per the ECMAScript spec,
  a stable sort consistent with the comparator; it is modelled by
  `List.insertionSort` over the relation `compare a b ≤ 0`, which is a
  stable sort for that total preorder.
-/

namespace HK

structure Worker where
  id : String
  name : String
  availability : Bool
  totalAssignedHours : Int
deriving DecidableEq

inductive Priority where
  | high
  | medium
  | low
deriving DecidableEq

structure Task where
  id : String
  description : String
  priority : Priority
  timeEstimate : Int
  deadline : String
  assignedTo : Option String
  createdAt : String
  completed : Bool
deriving DecidableEq

/-- `MAX_WORK_HOURS_PER_DAY` from `data.ts`. -/
def MAX_WORK_HOURS_PER_DAY : Int := 8

/-- `PRIORITY_WEIGHTS` from `data.ts`: high 3, medium 2, low 1. -/
def PRIORITY_WEIGHTS : Priority → Int
  | .high => 3
  | .medium => 2
  | .low => 1

/-- The module-level mutable state of `data.ts`: the `workers` and `tasks`
arrays and the two id counters.  (The `workerMap` is the index of `workers`
by id, see the header comment.) -/
structure Store where
  workers : List Worker
  tasks : List Task
  nextWorkerId : Nat
  nextTaskId : Nat
deriving DecidableEq

/-- The initial state of the module: empty arrays, both counters at 1. -/
def emptyStore : Store := ⟨[], [], 1, 1⟩

/-- Decimal digit to its ASCII character, modelling how JS `String(n)`
renders each digit of `n`. -/
def digitChar (d : Nat) : Char := Char.ofNat (48 + d)

/-- Fuel-driven decimal rendering of a natural number (little helper so the
definition is structurally recursive and kernel-reducible); with fuel at
least `m` it produces the decimal digits of `m`, most significant first. -/
def decCharsAux : Nat → Nat → List Char
  | 0, _ => []
  | _ + 1, 0 => []
  | f + 1, m + 1 => decCharsAux f ((m + 1) / 10) ++ [digitChar ((m + 1) % 10)]

/-- JS `String(n)` for a natural number: its decimal digit string. -/
def decChars (n : Nat) : List Char :=
  if n = 0 then ['0'] else decCharsAux n n

/-- JS `s.padStart(3, '0')` on a digit string. -/
def padStart3 (l : List Char) : List Char :=
  List.replicate (3 - l.length) '0' ++ l

/-- The id format of `data.ts`: a tag letter followed by the zero-padded
counter (`W001`, `T014`, ...). -/
def idString (tag : Char) (n : Nat) : String :=
  String.mk (tag :: padStart3 (decChars n))

/-- Worker ids: `W${String(nextWorkerId).padStart(3, '0')}`. -/
def workerIdStr (n : Nat) : String := idString 'W' n

/-- Task ids: `T${String(nextTaskId).padStart(3, '0')}`. -/
def taskIdStr (n : Nat) : String := idString 'T' n

/-- `tasks.find(t => t.id === taskId)`. -/
def findTask (s : Store) (taskId : String) : Option Task :=
  s.tasks.find? (fun t => t.id == taskId)

/-- `workerMap.get(workerId)` (= first entry of the `workers` array with
that id, see the header comment). -/
def getWorker (s : Store) (workerId : String) : Option Worker :=
  s.workers.find? (fun w => w.id == workerId)

/-- Replace the first entry satisfying `p` by its image under `f`; this is
how mutating the object returned by `find` / `Map.get` acts on the list. -/
def updateFirst (p : α → Bool) (f : α → α) : List α → List α
  | [] => []
  | x :: xs => if p x then f x :: xs else x :: updateFirst p f xs

/-- Mutate the worker object with the given id (no-op when absent). -/
def updateWorker (s : Store) (workerId : String) (f : Worker → Worker) : Store :=
  { s with workers := updateFirst (fun w => w.id == workerId) f s.workers }

/-- Mutate the task object with the given id (no-op when absent). -/
def updateTask (s : Store) (taskId : String) (f : Task → Task) : Store :=
  { s with tasks := updateFirst (fun t => t.id == taskId) f s.tasks }

/-- The distinct throw sites of the engine; the spec names
`capacityExceeded` `CapacityError`, the two lookup failures
`NotFoundError` and `workerUnavailable` `AvailabilityError`. -/
inductive EngineError where
  | taskNotFound
  | workerNotFound
  | workerUnavailable
  | capacityExceeded
deriving DecidableEq

/-- `addWorker(name)` from `data.ts`: allocate an id, insert an available
worker with zero hours, return it. -/
def addWorker (name : String) (s : Store) : Worker × Store :=
  let id := workerIdStr s.nextWorkerId
  let w : Worker := ⟨id, name, true, 0⟩
  (w, { s with workers := s.workers ++ [w], nextWorkerId := s.nextWorkerId + 1 })

/-- `addTask(description, priority, timeEstimate, deadline)` from
`data.ts`: allocate an id and append the task, unassigned and not
completed.  The TS function performs no input validation.  `createdAt`
models the ambient clock value `new Date().toISOString()`. -/
def addTask (description : String) (priority : Priority) (timeEstimate : Int)
    (deadline createdAt : String) (s : Store) : Task × Store :=
  let id := taskIdStr s.nextTaskId
  let t : Task := ⟨id, description, priority, timeEstimate, deadline, none, createdAt, false⟩
  (t, { s with tasks := s.tasks ++ [t], nextTaskId := s.nextTaskId + 1 })

/-- `updateWorkerAvailability(id, availability)` from `data.ts`. -/
def updateWorkerAvailability (id : String) (availability : Bool) (s : Store) :
    Except EngineError Store :=
  match getWorker s id with
  | none => .error .workerNotFound
  | some _ => .ok (updateWorker s id (fun w => { w with availability := availability }))

/-- The mutation block of `assignTaskToWorker` (everything after the guard
checks): credit a truthy previous assignee, bind the task, add the estimate
to the new worker. -/
def assignCommit (taskId workerId : String) (task : Task) (s : Store) : Store :=
  let s1 :=
    match task.assignedTo with
    | some prevId =>
      if prevId == "" then s
      else updateWorker s prevId
        (fun w => { w with totalAssignedHours := w.totalAssignedHours - task.timeEstimate })
    | none => s
  let s2 := updateTask s1 taskId (fun t => { t with assignedTo := some workerId })
  updateWorker s2 workerId
    (fun w => { w with totalAssignedHours := w.totalAssignedHours + task.timeEstimate })

/-- `assignTaskToWorker(taskId, workerId)` from `data.ts`: resolve both
records, reject if the worker is unavailable or the capacity ceiling would
be exceeded (strict `>`), then run the commit block `assignCommit`. -/
def assignTaskToWorker (taskId workerId : String) (s : Store) : Except EngineError Store :=
  match findTask s taskId with
  | none => .error .taskNotFound
  | some task =>
    match getWorker s workerId with
    | none => .error .workerNotFound
    | some worker =>
      if worker.availability = false then .error .workerUnavailable
      else if MAX_WORK_HOURS_PER_DAY < worker.totalAssignedHours + task.timeEstimate then
        .error .capacityExceeded
      else .ok (assignCommit taskId workerId task s)

/-- `unassignTask(taskId)` from `data.ts`: when the task has a truthy
assignee, subtract its estimate from that worker and clear the binding;
otherwise do nothing. -/
def unassignTask (taskId : String) (s : Store) : Except EngineError Store :=
  match findTask s taskId with
  | none => .error .taskNotFound
  | some task =>
    match task.assignedTo with
    | some workerId =>
      if workerId == "" then .ok s
      else
        let s1 := updateWorker s workerId
          (fun w => { w with totalAssignedHours := w.totalAssignedHours - task.timeEstimate })
        .ok (updateTask s1 taskId (fun t => { t with assignedTo := none }))
    | none => .ok s

/-- `completeTask(taskId)` from `data.ts`: set the completed flag (and
nothing else). -/
def completeTask (taskId : String) (s : Store) : Except EngineError Store :=
  match findTask s taskId with
  | none => .error .taskNotFound
  | some _ => .ok (updateTask s taskId (fun t => { t with completed := true }))

/-- One caller-level engine invocation.  The UI catches thrown errors and
leaves the stores as they were, and every throw in `data.ts` happens
before any mutation, so a failing call leaves the state unchanged. -/
inductive Op where
  | addWorker (name : String)
  | addTask (description : String) (priority : Priority) (timeEstimate : Int)
      (deadline createdAt : String)
  | setAvailability (id : String) (availability : Bool)
  | assign (taskId workerId : String)
  | unassign (taskId : String)
  | complete (taskId : String)

/-- Apply one engine operation; a thrown error leaves the state unchanged. -/
def applyOp (s : Store) : Op → Store
  | .addWorker n => (addWorker n s).2
  | .addTask d p e dl ca => (addTask d p e dl ca s).2
  | .setAvailability i a =>
    match updateWorkerAvailability i a s with
    | .ok s1 => s1
    | .error _ => s
  | .assign t w =>
    match assignTaskToWorker t w s with
    | .ok s1 => s1
    | .error _ => s
  | .unassign t =>
    match unassignTask t s with
    | .ok s1 => s1
    | .error _ => s
  | .complete t =>
    match completeTask t s with
    | .ok s1 => s1
    | .error _ => s

/-- Run a sequence of engine operations from the initial empty state. -/
def run (ops : List Op) : Store := ops.foldl applyOp emptyStore

/-- Sum of `timeEstimate` over the tasks assigned to the given worker id
(completed or not). -/
def hoursFor (workerId : String) (ts : List Task) : Int :=
  (ts.map (fun t => if t.assignedTo = some workerId then t.timeEstimate else 0)).sum

/-- Sum of `timeEstimate` over the not-completed tasks assigned to the
given worker id (the quantity claim C2 says equals `totalAssignedHours`). -/
def activeHoursFor (workerId : String) (ts : List Task) : Int :=
  (ts.map (fun t =>
    if t.assignedTo = some workerId ∧ t.completed = false then t.timeEstimate else 0)).sum

/-- The comparator of `sortTasksByPriority`:
`PRIORITY_WEIGHTS[b.priority] - PRIORITY_WEIGHTS[a.priority]` when nonzero,
otherwise `getTime(a.deadline) - getTime(b.deadline)`; `dateTime` models
`new Date(str).getTime()`. -/
def cmpByPriority (dateTime : String → Int) (a b : Task) : Int :=
  let priorityDiff := PRIORITY_WEIGHTS b.priority - PRIORITY_WEIGHTS a.priority
  if priorityDiff ≠ 0 then priorityDiff
  else dateTime a.deadline - dateTime b.deadline

/-- The total preorder "the comparator does not order `b` strictly before
`a`"; a comparator-consistent stable JS sort sorts by this relation. -/
def taskLe (dateTime : String → Int) (a b : Task) : Prop :=
  cmpByPriority dateTime a b ≤ 0

instance taskLeDecidable (dateTime : String → Int) : DecidableRel (taskLe dateTime) :=
  fun a b => inferInstanceAs (Decidable (cmpByPriority dateTime a b ≤ 0))

/-- `sortTasksByPriority(tasks)` from `data.ts`: a stable sort of a copy of
the input by the comparator `cmpByPriority` (ECMAScript `Array.prototype.sort`
is stable, and `List.insertionSort` is the stable sort by `taskLe`). -/
def sortTasksByPriority (dateTime : String → Int) (tasks : List Task) : List Task :=
  tasks.insertionSort (taskLe dateTime)

/-- JS `s.toLowerCase()` (ASCII case folding; all data in scope is ASCII). -/
def lowerStr (s : String) : String := String.mk (s.data.map Char.toLower)

/-- JS `hay.includes(sub)`: is `sub` a contiguous substring of `hay`? -/
def containsStr (hay sub : String) : Bool := decide (sub.data <:+: hay.data)

/-- `searchTasks(query)` from `data.ts`: lowercase the query once, keep the
tasks whose lowercased `description`, `id`, or truthy `assignedTo`
contains it. -/
def searchTasks (query : String) (s : Store) : List Task :=
  let lowercaseQuery := lowerStr query
  s.tasks.filter (fun task =>
    containsStr (lowerStr task.description) lowercaseQuery ||
    containsStr (lowerStr task.id) lowercaseQuery ||
    (match task.assignedTo with
     | some a => !(a == "") && containsStr (lowerStr a) lowercaseQuery
     | none => false))

/-- The spec's description of `search`: case-insensitive substring match
against `description`, `id`, and `assignedTo` (null-safe: a task with no
assigned worker never matches on that field), logical OR across the three
fields.  Written from the spec's words, to be compared with `searchTasks`. -/
def specSearchMatches (query : String) (t : Task) : Bool :=
  containsStr (lowerStr t.description) (lowerStr query) ||
  containsStr (lowerStr t.id) (lowerStr query) ||
  (match t.assignedTo with
   | some a => containsStr (lowerStr a) (lowerStr query)
   | none => false)

/-- The status filter dropdown of `src/app/tasks/page.tsx`. -/
inductive FilterOption where
  | all
  | active
  | completed
  | assigned
  | unassigned
deriving DecidableEq

/-- The status-filter pass of `applyFiltersAndSorting` in
`src/app/tasks/page.tsx` (the `switch (filterBy)`). -/
def applyStatusFilter : FilterOption → List Task → List Task
  | .active, ts => ts.filter (fun task => !task.completed)
  | .completed, ts => ts.filter (fun task => task.completed)
  | .assigned, ts => ts.filter (fun task => task.assignedTo.isSome)
  | .unassigned, ts => ts.filter (fun task => task.assignedTo.isNone)
  | .all, ts => ts

/-- The priority-filter pass of `applyFiltersAndSorting` in
`src/app/tasks/page.tsx` (`none` is the `'all'` setting). -/
def applyPriorityFilter : Option Priority → List Task → List Task
  | some p, ts => ts.filter (fun task => task.priority == p)
  | none, ts => ts

/-- The ordering the spec asks of `sortByPriority`: descending priority
weight, ties broken by ascending deadline. -/
def specPriorityOrder (dateTime : String → Int) (a b : Task) : Prop :=
  PRIORITY_WEIGHTS b.priority < PRIORITY_WEIGHTS a.priority ∨
    (PRIORITY_WEIGHTS a.priority = PRIORITY_WEIGHTS b.priority ∧
      dateTime a.deadline ≤ dateTime b.deadline)

/-- A concrete `getTime` valuation for the spec's worked examples
(January dates of 2024, as days). -/
def exDateTime : String → Int
  | "Jan 1" => 1
  | "Jan 5" => 5
  | "Jan 10" => 10
  | _ => 0

/-- `{high, Jan 10}` from the spec's `sortByPriority` example. -/
def exSortTask1 : Task := ⟨"T001", "a", .high, 1, "Jan 10", none, "t0", false⟩

/-- `{high, Jan 5}` from the spec's `sortByPriority` example. -/
def exSortTask2 : Task := ⟨"T002", "b", .high, 1, "Jan 5", none, "t0", false⟩

/-- `{low, Jan 1}` from the spec's `sortByPriority` example. -/
def exSortTask3 : Task := ⟨"T003", "c", .low, 1, "Jan 1", none, "t0", false⟩

instance instIsTransTaskLe (dateTime : String → Int) : IsTrans Task (taskLe dateTime) := by
  constructor
  intro a b c hab hbc
  unfold taskLe cmpByPriority at hab hbc ⊢
  simp only at hab hbc ⊢
  split_ifs at hab hbc ⊢ <;> omega

instance instIsTotalTaskLe (dateTime : String → Int) : IsTotal Task (taskLe dateTime) := by
  constructor
  intro a b
  unfold taskLe cmpByPriority
  simp only
  split_ifs <;> omega

/-- The store of the spec's `search` example: three tasks whose
descriptions are Clean Room 101, Vacuum Hallway and Mop Room 202. -/
def sSearch : Store :=
  ⟨[], [⟨"T001", "Clean Room 101", .high, 1, "Jan 5", none, "t0", false⟩,
    ⟨"T002", "Vacuum Hallway", .medium, 1, "Jan 5", none, "t0", false⟩,
    ⟨"T003", "Mop Room 202", .low, 1, "Jan 5", none, "t0", false⟩], 1, 4⟩

/-- A demonstration engine trace: add a worker, add a 2-hour task, assign
it, complete it. -/
def exOps : List Op :=
  [.addWorker "Alice", .addTask "Clean Room 101" .high 2 "Jan 5" "t0",
    .assign "T001" "W001", .complete "T001"]

/-- A trace whose `addTask` smuggles in a negative estimate (the engine
accepts it, see claim C6). -/
def exBadOps : List Op :=
  [.addWorker "Alice", .addTask "Clean Room 101" .high (-3) "Jan 5" "t0",
    .assign "T001" "W001"]

/-- Concrete store for single-step witnesses: Alice at 6 assigned hours,
one unassigned 2-hour task. -/
def sCap : Store :=
  ⟨[⟨"W001", "Alice", true, 6⟩],
    [⟨"T001", "Mop floor", .high, 2, "Jan 5", none, "t0", false⟩], 2, 2⟩

/-- Concrete store with the task bound to Alice (2 hours on her tally) and
a second worker Bob at 3 hours. -/
def sRe : Store :=
  ⟨[⟨"W001", "Alice", true, 2⟩, ⟨"W002", "Bob", true, 3⟩],
    [⟨"T001", "Mop floor", .high, 2, "Jan 5", some "W001", "t0", false⟩], 3, 2⟩

/-- The structural well-formedness of an engine state: worker ids were
issued by the allocator (so they are nonempty and pairwise distinct),
every assignee recorded on a task is an existing worker, and every
worker's `totalAssignedHours` is the sum of the estimates of the tasks
bound to it (completed or not — `completeTask` does not release hours). -/
structure Inv (s : Store) : Prop where
  workerPos : 1 ≤ s.nextWorkerId
  workerIds : ∀ w ∈ s.workers, ∃ k, 1 ≤ k ∧ k < s.nextWorkerId ∧ w.id = workerIdStr k
  nodupIds : (s.workers.map Worker.id).Nodup
  assignedExists : ∀ t ∈ s.tasks, ∀ wid, t.assignedTo = some wid → ∃ w ∈ s.workers, w.id = wid
  hoursEq : ∀ w ∈ s.workers, w.totalAssignedHours = hoursFor w.id s.tasks

/-- The operation creates no task with a negative `timeEstimate` (what the
spec's `ValidationError` on `addTask` was meant to guarantee). -/
def opEstNonneg : Op → Prop
  | .addTask _ _ e _ _ => 0 ≤ e
  | _ => True

instance instDecOpEstNonneg : DecidablePred opEstNonneg := fun op =>
  match op with
  | .addWorker _ => inferInstanceAs (Decidable True)
  | .addTask _ _ e _ _ => inferInstanceAs (Decidable (0 ≤ e))
  | .setAvailability _ _ => inferInstanceAs (Decidable True)
  | .assign _ _ => inferInstanceAs (Decidable True)
  | .unassign _ => inferInstanceAs (Decidable True)
  | .complete _ => inferInstanceAs (Decidable True)

/-- Every task estimate is nonnegative and every worker's hours lie within
`[0, MAX_WORK_HOURS_PER_DAY]`. -/
def StoreBounds (s : Store) : Prop :=
  (∀ t ∈ s.tasks, 0 ≤ t.timeEstimate) ∧
    ∀ w ∈ s.workers, 0 ≤ w.totalAssignedHours ∧ w.totalAssignedHours ≤ MAX_WORK_HOURS_PER_DAY

theorem updateFirst_of_find?_eq_none {α : Type} {p : α → Bool} {f : α → α} {l : List α}
    (h : l.find? p = none) : updateFirst p f l = l := by
  induction l with
  | nil => rfl
  | cons x xs ih =>
    by_cases hx : p x
    · simp [List.find?_cons_of_pos _ hx] at h
    · rw [List.find?_cons_of_neg _ hx] at h
      simp [updateFirst, hx, ih h]

theorem find?_decomp {α : Type} {p : α → Bool} {l : List α} {a : α} (h : l.find? p = some a) :
    ∃ l₁ l₂, l = l₁ ++ a :: l₂ ∧ (∀ x ∈ l₁, p x = false) ∧ p a = true ∧
      ∀ f : α → α, updateFirst p f l = l₁ ++ f a :: l₂ := by
  induction l with
  | nil => simp at h
  | cons x xs ih =>
    by_cases hx : p x
    · rw [List.find?_cons_of_pos _ hx] at h
      obtain rfl : x = a := by injection h
      exact ⟨[], xs, rfl, by simp, hx, fun f => by simp [updateFirst, hx]⟩
    · rw [List.find?_cons_of_neg _ hx] at h
      obtain ⟨l₁, l₂, hdec, h₁, ha, hu⟩ := ih h
      refine ⟨x :: l₁, l₂, by rw [hdec]; rfl, ?_, ha, fun f => ?_⟩
      · intro y hy
        rcases List.mem_cons.mp hy with rfl | hy
        · simpa using hx
        · exact h₁ y hy
      · simp only [updateFirst, if_neg hx, hu f, List.cons_append]

theorem find?_updateFirst_self {α : Type} {p : α → Bool} {f : α → α}
    (hp : ∀ x, p (f x) = p x) (l : List α) :
    (updateFirst p f l).find? p = (l.find? p).map f := by
  induction l with
  | nil => rfl
  | cons x xs ih =>
    by_cases hx : p x
    · have hfx : p (f x) = true := by rw [hp]; exact hx
      simp [updateFirst, hx, List.find?_cons_of_pos _ hfx, List.find?_cons_of_pos _ hx]
    · simp [updateFirst, hx, List.find?_cons_of_neg _ hx, ih]

theorem find?_updateFirst_of_ne {α : Type} {p q : α → Bool} {f : α → α}
    (hq : ∀ x, q (f x) = q x) (hpq : ∀ x, p x = true → q x = false) (l : List α) :
    (updateFirst p f l).find? q = l.find? q := by
  induction l with
  | nil => rfl
  | cons x xs ih =>
    by_cases hx : p x
    · have h1 : q x = false := hpq x hx
      have h2 : q (f x) = false := by rw [hq]; exact h1
      simp [updateFirst, hx, List.find?_cons_of_neg, h1, h2]
    · by_cases hqx : q x
      · simp [updateFirst, hx, List.find?_cons_of_pos _ hqx]
      · simp [updateFirst, hx, List.find?_cons_of_neg _ hqx, ih]

theorem map_updateFirst_eq {α β : Type} {p : α → Bool} {f : α → α} {g : α → β}
    (hg : ∀ x, g (f x) = g x) (l : List α) :
    (updateFirst p f l).map g = l.map g := by
  induction l with
  | nil => rfl
  | cons x xs ih =>
    by_cases hx : p x
    · simp [updateFirst, hx, hg]
    · simp [updateFirst, hx, ih]

theorem hoursFor_nil (wid : String) : hoursFor wid [] = 0 := rfl

theorem hoursFor_cons (wid : String) (t : Task) (l : List Task) :
    hoursFor wid (t :: l) =
      (if t.assignedTo = some wid then t.timeEstimate else 0) + hoursFor wid l := by
  simp [hoursFor]

theorem hoursFor_append (wid : String) (l₁ l₂ : List Task) :
    hoursFor wid (l₁ ++ l₂) = hoursFor wid l₁ + hoursFor wid l₂ := by
  simp [hoursFor]

theorem decCharsAux_eq :
    ∀ m f : Nat, m ≤ f → decCharsAux f m = ((Nat.digits 10 m).map digitChar).reverse := by
  intro m
  induction m using Nat.strong_induction_on with
  | _ m ih =>
    intro f hf
    match m, f with
    | 0, 0 => simp [decCharsAux]
    | 0, f + 1 => simp [decCharsAux]
    | m + 1, 0 => omega
    | m + 1, f + 1 =>
      have hdiv : (m + 1) / 10 < m + 1 := Nat.div_lt_self (Nat.succ_pos m) (by norm_num)
      rw [decCharsAux, ih _ hdiv f (by omega),
        Nat.digits_def' (by norm_num : (1 : ℕ) < 10) (Nat.succ_pos m)]
      simp

theorem decChars_eq {n : Nat} (hn : n ≠ 0) :
    decChars n = ((Nat.digits 10 n).map digitChar).reverse := by
  rw [decChars, if_neg hn]
  exact decCharsAux_eq n n le_rfl

theorem digitChar_inj_lt : ∀ d < 10, ∀ e < 10, digitChar d = digitChar e → d = e := by decide

theorem digitChar_ne_zero_char : ∀ d < 10, d ≠ 0 → digitChar d ≠ '0' := by decide

theorem map_digitChar_inj :
    ∀ l₁ l₂ : List Nat, (∀ x ∈ l₁, x < 10) → (∀ x ∈ l₂, x < 10) →
      l₁.map digitChar = l₂.map digitChar → l₁ = l₂ := by
  intro l₁
  induction l₁ with
  | nil =>
    intro l₂ _ _ h
    cases l₂ with
    | nil => rfl
    | cons b t => simp at h
  | cons a l ih =>
    intro l₂ h₁ h₂ h
    cases l₂ with
    | nil => simp at h
    | cons b t =>
      simp only [List.map_cons, List.cons.injEq] at h
      obtain ⟨hab, ht⟩ := h
      have hb : a = b :=
        digitChar_inj_lt a (h₁ a (List.mem_cons_self a l)) b (h₂ b (List.mem_cons_self b t)) hab
      subst hb
      rw [ih t (fun x hx => h₁ x (List.mem_cons_of_mem a hx))
        (fun x hx => h₂ x (List.mem_cons_of_mem a hx)) ht]

theorem decChars_inj {n m : Nat} (hn : n ≠ 0) (hm : m ≠ 0) (h : decChars n = decChars m) :
    n = m := by
  rw [decChars_eq hn, decChars_eq hm] at h
  have h2 := List.reverse_injective h
  have h3 := map_digitChar_inj _ _
    (fun x hx => Nat.digits_lt_base (by norm_num) hx)
    (fun x hx => Nat.digits_lt_base (by norm_num) hx) h2
  calc n = Nat.ofDigits 10 (Nat.digits 10 n) := (Nat.ofDigits_digits 10 n).symm
    _ = Nat.ofDigits 10 (Nat.digits 10 m) := by rw [h3]
    _ = m := Nat.ofDigits_digits 10 m

theorem decChars_not_leading_zero {n : Nat} (hn : n ≠ 0) :
    ∀ c, (decChars n).head? = some c → c ≠ '0' := by
  rw [decChars_eq hn]
  intro c hc
  rw [List.head?_reverse, List.getLast?_map] at hc
  have hne : Nat.digits 10 n ≠ [] := Nat.digits_ne_nil_iff_ne_zero.mpr hn
  rw [List.getLast?_eq_getLast _ hne] at hc
  simp only [Option.map_some'] at hc
  obtain rfl : digitChar ((Nat.digits 10 n).getLast hne) = c := by injection hc
  exact digitChar_ne_zero_char _
    (Nat.digits_lt_base (by norm_num) (List.getLast_mem hne))
    (Nat.getLast_digit_ne_zero 10 hn)

theorem dropWhile_replicate_zero_append (l : List Char)
    (hl : ∀ c, l.head? = some c → c ≠ '0') (k : Nat) :
    List.dropWhile (fun c => c == '0') (List.replicate k '0' ++ l) = l := by
  induction k with
  | zero =>
    rw [List.replicate_zero, List.nil_append]
    cases l with
    | nil => rfl
    | cons c cs =>
      have hc : c ≠ '0' := hl c rfl
      simp [List.dropWhile_cons, hc]
  | succ k ih =>
    rw [List.replicate_succ, List.cons_append]
    simpa [List.dropWhile_cons] using ih

theorem padStart3_inj {l₁ l₂ : List Char}
    (h₁ : ∀ c, l₁.head? = some c → c ≠ '0')
    (h₂ : ∀ c, l₂.head? = some c → c ≠ '0')
    (h : padStart3 l₁ = padStart3 l₂) : l₁ = l₂ := by
  have e₁ := dropWhile_replicate_zero_append l₁ h₁ (3 - l₁.length)
  have e₂ := dropWhile_replicate_zero_append l₂ h₂ (3 - l₂.length)
  rw [padStart3, padStart3] at h
  rw [← e₁, ← e₂, h]

theorem idString_inj {tag : Char} {n m : Nat} (hn : n ≠ 0) (hm : m ≠ 0)
    (h : idString tag n = idString tag m) : n = m := by
  have h2 : tag :: padStart3 (decChars n) = tag :: padStart3 (decChars m) :=
    congrArg String.data h
  injection h2 with _ h3
  exact decChars_inj hn hm
    (padStart3_inj (decChars_not_leading_zero hn) (decChars_not_leading_zero hm) h3)

theorem workerIdStr_inj {n m : Nat} (hn : n ≠ 0) (hm : m ≠ 0)
    (h : workerIdStr n = workerIdStr m) : n = m :=
  idString_inj hn hm h

theorem workerIdStr_ne_empty (n : Nat) : workerIdStr n ≠ "" := by
  intro h
  have h2 : 'W' :: padStart3 (decChars n) = ([] : List Char) := congrArg String.data h
  simp at h2

theorem mem_updateFirst {α : Type} {p : α → Bool} {f : α → α} {l : List α} {x' : α}
    (h : x' ∈ updateFirst p f l) : x' ∈ l ∨ ∃ x ∈ l, p x = true ∧ x' = f x := by
  induction l with
  | nil => simp [updateFirst] at h
  | cons x xs ih =>
    by_cases hx : p x
    · rw [updateFirst, if_pos hx] at h
      rcases List.mem_cons.mp h with rfl | h
      · exact Or.inr ⟨x, List.mem_cons_self x xs, hx, rfl⟩
      · exact Or.inl (List.mem_cons_of_mem x h)
    · rw [updateFirst, if_neg hx] at h
      rcases List.mem_cons.mp h with rfl | h
      · exact Or.inl (List.mem_cons_self _ _)
      · rcases ih h with h | ⟨y, hy, hpy, rfl⟩
        · exact Or.inl (List.mem_cons_of_mem x h)
        · exact Or.inr ⟨y, List.mem_cons_of_mem x hy, hpy, rfl⟩

theorem updateFirst_append_first {α : Type} {p : α → Bool} {f : α → α} {l₁ l₂ : List α} {a : α}
    (h₁ : ∀ x ∈ l₁, p x = false) (ha : p a = true) :
    updateFirst p f (l₁ ++ a :: l₂) = l₁ ++ f a :: l₂ := by
  induction l₁ with
  | nil => simp [updateFirst, ha]
  | cons x xs ih =>
    have hx : ¬ p x = true := by simp [h₁ x (List.mem_cons_self x xs)]
    rw [List.cons_append, updateFirst, if_neg hx,
      ih (fun y hy => h₁ y (List.mem_cons_of_mem x hy)), List.cons_append]

theorem mem_updateWorker_cases {ws : List Worker} {wid : String} {f : Worker → Worker}
    (hnd : (ws.map Worker.id).Nodup)
    {w' : Worker} (hw' : w' ∈ updateFirst (fun w => w.id == wid) f ws) :
    (w' ∈ ws ∧ w'.id ≠ wid) ∨
      ∃ wa, ws.find? (fun w => w.id == wid) = some wa ∧ w' = f wa := by
  rcases hfind : ws.find? (fun w => w.id == wid) with _ | wa
  · rw [updateFirst_of_find?_eq_none hfind] at hw'
    refine Or.inl ⟨hw', ?_⟩
    have := List.find?_eq_none.mp hfind w' hw'
    simpa using this
  · obtain ⟨W₁, W₂, hdec, hnomatch, hpa, hu⟩ := find?_decomp hfind
    have hwaid : wa.id = wid := by simpa using hpa
    rw [hu f] at hw'
    rcases List.mem_append.mp hw' with h1 | h1
    · refine Or.inl ⟨by rw [hdec]; exact List.mem_append_left _ h1, ?_⟩
      have := hnomatch w' h1
      simpa using this
    · rcases List.mem_cons.mp h1 with rfl | h2
      · exact Or.inr ⟨wa, hfind, rfl⟩
      · refine Or.inl ⟨by rw [hdec]; exact List.mem_append_right _ (List.mem_cons_of_mem _ h2), ?_⟩
        have hsub : List.Sublist ((wa :: W₂).map Worker.id) (ws.map Worker.id) := by
          rw [hdec, List.map_append]
          exact (List.map Worker.id W₁).sublist_append_right _
        have hnd2 : ((wa :: W₂).map Worker.id).Nodup := hnd.sublist hsub
        rw [List.map_cons, List.nodup_cons] at hnd2
        intro hcontra
        exact hnd2.1 (hwaid ▸ hcontra ▸ List.mem_map_of_mem Worker.id h2)

theorem hoursFor_replace (x : String) (T₁ T₂ : List Task) (t t2 : Task) :
    hoursFor x (T₁ ++ t2 :: T₂) =
      hoursFor x (T₁ ++ t :: T₂) - (if t.assignedTo = some x then t.timeEstimate else 0) +
        (if t2.assignedTo = some x then t2.timeEstimate else 0) := by
  rw [hoursFor_append, hoursFor_append, hoursFor_cons, hoursFor_cons]
  ring

theorem hoursFor_eq_zero_of_not_assigned {wid : String} {ts : List Task}
    (h : ∀ t ∈ ts, t.assignedTo ≠ some wid) : hoursFor wid ts = 0 := by
  apply List.sum_eq_zero
  intro x hx
  obtain ⟨t, ht, rfl⟩ := List.mem_map.mp hx
  simp [h t ht]

theorem contrib_le_hoursFor {wid : String} {ts : List Task} {t : Task}
    (ht : t ∈ ts) (ha : t.assignedTo = some wid)
    (hnn : ∀ u ∈ ts, 0 ≤ u.timeEstimate) : t.timeEstimate ≤ hoursFor wid ts := by
  have hmem : (if t.assignedTo = some wid then t.timeEstimate else 0) ∈
      ts.map (fun u => if u.assignedTo = some wid then u.timeEstimate else 0) :=
    List.mem_map_of_mem _ ht
  have hnn2 : ∀ x ∈ ts.map (fun u => if u.assignedTo = some wid then u.timeEstimate else 0),
      0 ≤ x := by
    intro x hx
    obtain ⟨u, hu, rfl⟩ := List.mem_map.mp hx
    by_cases hcase : u.assignedTo = some wid
    · simpa [hcase] using hnn u hu
    · simp [hcase]
  have := List.single_le_sum hnn2 _ hmem
  rwa [if_pos ha] at this

theorem exists_id_iff_mem_map {ws : List Worker} {wid : String} :
    (∃ w ∈ ws, w.id = wid) ↔ wid ∈ ws.map Worker.id := by
  constructor
  · rintro ⟨w, hw, rfl⟩
    exact List.mem_map_of_mem Worker.id hw
  · intro h
    obtain ⟨w, hw, h2⟩ := List.mem_map.mp h
    exact ⟨w, hw, h2⟩

theorem updateWorker_tasks (s : Store) (wid : String) (f : Worker → Worker) :
    (updateWorker s wid f).tasks = s.tasks := rfl

theorem updateWorker_workers (s : Store) (wid : String) (f : Worker → Worker) :
    (updateWorker s wid f).workers = updateFirst (fun w => w.id == wid) f s.workers := rfl

theorem updateTask_workers (s : Store) (tid : String) (f : Task → Task) :
    (updateTask s tid f).workers = s.workers := rfl

theorem updateTask_tasks (s : Store) (tid : String) (f : Task → Task) :
    (updateTask s tid f).tasks = updateFirst (fun t => t.id == tid) f s.tasks := rfl

theorem hoursFor_updateTask_found {ts : List Task} {tid : String} {task : Task} (f : Task → Task)
    (hft : ts.find? (fun t => t.id == tid) = some task) (x : String) :
    hoursFor x (updateFirst (fun t => t.id == tid) f ts) =
      hoursFor x ts - (if task.assignedTo = some x then task.timeEstimate else 0) +
        (if (f task).assignedTo = some x then (f task).timeEstimate else 0) := by
  obtain ⟨T₁, T₂, hTdec, _, _, hTu⟩ := find?_decomp hft
  rw [hTu f, hTdec, hoursFor_replace x T₁ T₂ task (f task)]

theorem inv_updateWorker_preserve {s : Store} {wid : String} {f : Worker → Worker}
    (hid : ∀ w, (f w).id = w.id)
    (hhours : ∀ w, (f w).totalAssignedHours = w.totalAssignedHours)
    (hinv : Inv s) : Inv (updateWorker s wid f) := by
  have hmap : ((updateWorker s wid f).workers.map Worker.id) = s.workers.map Worker.id := by
    rw [updateWorker_workers]
    exact map_updateFirst_eq hid s.workers
  constructor
  · exact hinv.workerPos
  · intro w hw
    rw [updateWorker_workers] at hw
    rcases mem_updateFirst hw with h1 | ⟨x, hx, _, rfl⟩
    · exact hinv.workerIds w h1
    · obtain ⟨k, hk1, hk2, hk3⟩ := hinv.workerIds x hx
      exact ⟨k, hk1, hk2, by rw [hid, hk3]⟩
  · rw [show (updateWorker s wid f).workers.map Worker.id = s.workers.map Worker.id from hmap]
    exact hinv.nodupIds
  · intro t ht wid2 hass
    rw [updateWorker_tasks] at ht
    have := hinv.assignedExists t ht wid2 hass
    rw [exists_id_iff_mem_map] at this ⊢
    rwa [hmap]
  · intro w hw
    rw [updateWorker_workers] at hw
    rw [updateWorker_tasks]
    rcases mem_updateFirst hw with h1 | ⟨x, hx, _, rfl⟩
    · exact hinv.hoursEq w h1
    · rw [hhours, hid]
      exact hinv.hoursEq x hx

theorem inv_setAvailability_ok {i : String} {a : Bool} {s s' : Store}
    (h : updateWorkerAvailability i a s = .ok s') (hinv : Inv s) : Inv s' := by
  unfold updateWorkerAvailability at h
  rcases hg : getWorker s i with _ | w
  · rw [hg] at h; simp at h
  · rw [hg] at h
    simp only [Except.ok.injEq] at h
    rw [← h]
    exact inv_updateWorker_preserve (fun _ => rfl) (fun _ => rfl) hinv

theorem inv_addWorker (name : String) {s : Store} (hinv : Inv s) : Inv (addWorker name s).2 := by
  have hfresh : ∀ w ∈ s.workers, w.id ≠ workerIdStr s.nextWorkerId := by
    intro w hw hcontra
    obtain ⟨k, hk1, hk2, hk3⟩ := hinv.workerIds w hw
    have : k = s.nextWorkerId := workerIdStr_inj (by omega) (by
      have := hinv.workerPos; omega) (by rw [← hk3, ← hcontra])
    omega
  have hpos := hinv.workerPos
  constructor
  · show 1 ≤ s.nextWorkerId + 1
    omega
  · intro w hw
    show ∃ k, 1 ≤ k ∧ k < s.nextWorkerId + 1 ∧ w.id = workerIdStr k
    rcases List.mem_append.mp hw with h1 | h1
    · obtain ⟨k, hk1, hk2, hk3⟩ := hinv.workerIds w h1
      exact ⟨k, hk1, by omega, hk3⟩
    · obtain rfl : w = (⟨workerIdStr s.nextWorkerId, name, true, 0⟩ : Worker) :=
        List.mem_singleton.mp h1
      exact ⟨s.nextWorkerId, hpos, by omega, rfl⟩
  · show ((s.workers ++ [(⟨workerIdStr s.nextWorkerId, name, true, 0⟩ : Worker)]).map Worker.id).Nodup
    rw [List.map_append]
    refine hinv.nodupIds.append (by simp) ?_
    intro x hx hx2
    obtain ⟨w, hw, rfl⟩ := List.mem_map.mp hx
    simp only [List.map_cons, List.map_nil, List.mem_singleton] at hx2
    exact hfresh w hw hx2
  · intro t ht wid hass
    obtain ⟨w, hw, hwid⟩ := hinv.assignedExists t ht wid hass
    exact ⟨w, List.mem_append_left _ hw, hwid⟩
  · intro w hw
    rcases List.mem_append.mp hw with h1 | h1
    · exact hinv.hoursEq w h1
    · obtain rfl : w = (⟨workerIdStr s.nextWorkerId, name, true, 0⟩ : Worker) :=
        List.mem_singleton.mp h1
      show (0 : Int) = hoursFor (workerIdStr s.nextWorkerId) s.tasks
      refine (hoursFor_eq_zero_of_not_assigned ?_).symm
      intro t ht hcontra
      obtain ⟨w, hw, hwid⟩ := hinv.assignedExists t ht _ hcontra
      exact hfresh w hw hwid

theorem inv_addTask (d : String) (p : Priority) (e : Int) (dl ca : String) {s : Store}
    (hinv : Inv s) : Inv (addTask d p e dl ca s).2 := by
  constructor
  · exact hinv.workerPos
  · exact hinv.workerIds
  · exact hinv.nodupIds
  · intro t ht wid hass
    rcases List.mem_append.mp ht with h1 | h1
    · exact hinv.assignedExists t h1 wid hass
    · obtain rfl := List.mem_singleton.mp h1
      simp at hass
  · intro w hw
    show w.totalAssignedHours = hoursFor w.id (s.tasks ++ [_])
    rw [hoursFor_append, hoursFor_cons, hoursFor_nil]
    rw [if_neg (by simp)]
    rw [hinv.hoursEq w hw]
    ring

theorem inv_unassignTask_ok {tid : String} {s s' : Store}
    (h : unassignTask tid s = .ok s') (hinv : Inv s) : Inv s' := by
  unfold unassignTask at h
  split at h
  · simp at h
  rename_i task hft
  split at h
  case h_2 =>
    simp only [Except.ok.injEq] at h
    rw [← h]; exact hinv
  rename_i wid hassigned
  split at h
  · simp only [Except.ok.injEq] at h
    rw [← h]; exact hinv
  simp only [Except.ok.injEq] at h
  rw [← h]
  have htmem : task ∈ s.tasks := List.mem_of_find?_eq_some hft
  have hmap := map_updateFirst_eq (p := fun w : Worker => w.id == wid)
    (f := fun w => { w with totalAssignedHours := w.totalAssignedHours - task.timeEstimate })
    (g := Worker.id) (fun _ => rfl) s.workers
  constructor
  · exact hinv.workerPos
  · intro w hw
    rw [updateTask_workers, updateWorker_workers] at hw
    show ∃ k, 1 ≤ k ∧ k < s.nextWorkerId ∧ w.id = workerIdStr k
    rcases mem_updateFirst hw with h1 | ⟨x, hx, _, rfl⟩
    · exact hinv.workerIds w h1
    · obtain ⟨k, hk1, hk2, hk3⟩ := hinv.workerIds x hx
      exact ⟨k, hk1, hk2, hk3⟩
  · show (((updateTask _ _ _).workers).map Worker.id).Nodup
    rw [updateTask_workers, updateWorker_workers, hmap]
    exact hinv.nodupIds
  · intro t ht wid2 hass
    rw [updateTask_tasks, updateWorker_tasks] at ht
    have htransfer : (∃ w ∈ s.workers, w.id = wid2) →
        ∃ w ∈ (updateTask (updateWorker s wid
            (fun w => { w with totalAssignedHours := w.totalAssignedHours - task.timeEstimate }))
          tid (fun t => { t with assignedTo := none })).workers, w.id = wid2 := by
      intro hex
      rw [exists_id_iff_mem_map] at hex ⊢
      rwa [updateTask_workers, updateWorker_workers, hmap]
    rcases mem_updateFirst ht with h1 | ⟨x, hx, _, rfl⟩
    · exact htransfer (hinv.assignedExists t h1 wid2 hass)
    · simp at hass
  · intro w hw
    rw [updateTask_workers, updateWorker_workers] at hw
    show w.totalAssignedHours = hoursFor w.id (updateTask (updateWorker s wid _) tid _).tasks
    rw [updateTask_tasks, updateWorker_tasks,
      hoursFor_updateTask_found (fun t => { t with assignedTo := none }) hft w.id]
    rcases mem_updateWorker_cases hinv.nodupIds hw with ⟨hmem, hne⟩ | ⟨wa, hfound, rfl⟩
    · have hc1 : ¬ task.assignedTo = some w.id := by
        rw [hassigned]
        intro hc
        exact hne (Option.some.inj hc).symm
      rw [if_neg hc1, if_neg (by simp), hinv.hoursEq w hmem]
      ring
    · have hwaid : wa.id = wid := by simpa using List.find?_some hfound
      have hwamem : wa ∈ s.workers := List.mem_of_find?_eq_some hfound
      have hc1 : task.assignedTo = some wa.id := by rw [hassigned, hwaid]
      show wa.totalAssignedHours - task.timeEstimate = _
      rw [if_pos hc1, if_neg (by simp), hinv.hoursEq wa hwamem]
      ring

theorem assignTaskToWorker_ok_elim {tid wid : String} {s s' : Store}
    (h : assignTaskToWorker tid wid s = .ok s') :
    ∃ task worker, findTask s tid = some task ∧ getWorker s wid = some worker ∧
      worker.availability = true ∧
      worker.totalAssignedHours + task.timeEstimate ≤ MAX_WORK_HOURS_PER_DAY ∧
      s' = assignCommit tid wid task s := by
  unfold assignTaskToWorker at h
  split at h
  · simp at h
  rename_i task hft
  split at h
  · simp at h
  rename_i worker hgw
  split at h
  · simp at h
  rename_i hav
  split at h
  · simp at h
  rename_i hcap
  simp only [Except.ok.injEq] at h
  exact ⟨task, worker, hft, hgw, by simpa using hav, by omega, h.symm⟩

theorem inv_commit_core {tid wid : String} {task : Task} {worker : Worker} {s s1 : Store}
    (hft : findTask s tid = some task) (hgw : getWorker s wid = some worker) (hinv : Inv s)
    (h1tasks : s1.tasks = s.tasks)
    (h1next : s1.nextWorkerId = s.nextWorkerId)
    (h1map : s1.workers.map Worker.id = s.workers.map Worker.id)
    (h1hours : ∀ w1 ∈ s1.workers, w1.totalAssignedHours =
      hoursFor w1.id s.tasks - (if task.assignedTo = some w1.id then task.timeEstimate else 0)) :
    Inv (updateWorker (updateTask s1 tid (fun t => { t with assignedTo := some wid })) wid
      (fun w => { w with totalAssignedHours := w.totalAssignedHours + task.timeEstimate })) := by
  have hft1 : s1.tasks.find? (fun t => t.id == tid) = some task := by
    rw [h1tasks]; exact hft
  have hnodup1 : (s1.workers.map Worker.id).Nodup := by rw [h1map]; exact hinv.nodupIds
  have hmapF := map_updateFirst_eq (p := fun w : Worker => w.id == wid)
    (f := fun w => { w with totalAssignedHours := w.totalAssignedHours + task.timeEstimate })
    (g := Worker.id) (fun _ => rfl) s1.workers
  have hoursF : ∀ x, hoursFor x (updateWorker
      (updateTask s1 tid (fun t => { t with assignedTo := some wid })) wid
      (fun w => { w with totalAssignedHours := w.totalAssignedHours + task.timeEstimate })).tasks =
      hoursFor x s.tasks - (if task.assignedTo = some x then task.timeEstimate else 0) +
        (if some wid = some x then task.timeEstimate else 0) := by
    intro x
    rw [updateWorker_tasks, updateTask_tasks, h1tasks,
      hoursFor_updateTask_found (fun t => { t with assignedTo := some wid }) hft x]
  have hworkerid : worker.id = wid := by simpa using List.find?_some hgw
  have hwmem : worker ∈ s.workers := List.mem_of_find?_eq_some hgw
  constructor
  · show 1 ≤ s1.nextWorkerId
    rw [h1next]; exact hinv.workerPos
  · intro w hw
    show ∃ k, 1 ≤ k ∧ k < s1.nextWorkerId ∧ w.id = workerIdStr k
    rw [h1next]
    have hidmem : w.id ∈ s.workers.map Worker.id := by
      rw [← h1map, ← hmapF]
      exact List.mem_map_of_mem Worker.id hw
    obtain ⟨w0, hmem0, hid0⟩ := exists_id_iff_mem_map.mpr hidmem
    obtain ⟨k, hk1, hk2, hk3⟩ := hinv.workerIds w0 hmem0
    exact ⟨k, hk1, hk2, by rw [← hid0, hk3]⟩
  · show ((updateFirst (fun w => w.id == wid)
      (fun w => { w with totalAssignedHours := w.totalAssignedHours + task.timeEstimate })
      s1.workers).map Worker.id).Nodup
    rw [hmapF]
    exact hnodup1
  · intro t2 ht2 wid2 hass
    have ht2b : t2 ∈ updateFirst (fun t => t.id == tid)
        (fun t => { t with assignedTo := some wid }) s.tasks := by
      rw [← h1tasks]; exact ht2
    have htransfer : (∃ w ∈ s.workers, w.id = wid2) →
        ∃ w ∈ (updateWorker (updateTask s1 tid (fun t => { t with assignedTo := some wid })) wid
          (fun w => { w with totalAssignedHours :=
            w.totalAssignedHours + task.timeEstimate })).workers, w.id = wid2 := by
      intro hex
      rw [exists_id_iff_mem_map] at hex ⊢
      rw [updateWorker_workers, updateTask_workers, hmapF, h1map]
      exact hex
    rcases mem_updateFirst ht2b with h1 | ⟨t0, _, _, rfl⟩
    · exact htransfer (hinv.assignedExists t2 h1 wid2 hass)
    · have : some wid = some wid2 := hass
      obtain rfl : wid = wid2 := Option.some.inj this
      exact htransfer ⟨worker, hwmem, hworkerid⟩
  · intro w hw
    have hw2 : w ∈ updateFirst (fun w => w.id == wid)
        (fun w => { w with totalAssignedHours := w.totalAssignedHours + task.timeEstimate })
        s1.workers := hw
    rcases mem_updateWorker_cases hnodup1 hw2 with ⟨hmem1, hne⟩ | ⟨wa, hfound, rfl⟩
    · rw [hoursF w.id, if_neg (fun hc => hne (Option.some.inj hc).symm), h1hours w hmem1]
      ring
    · have hwaid : wa.id = wid := by simpa using List.find?_some hfound
      have hwamem : wa ∈ s1.workers := List.mem_of_find?_eq_some hfound
      have hh := h1hours wa hwamem
      rw [hwaid] at hh
      dsimp only
      rw [hoursF wa.id, hwaid, hh]
      have h2 : (if (some wid : Option String) = some wid then task.timeEstimate else 0) =
          task.timeEstimate := if_pos rfl
      rw [h2]

theorem inv_assignTask_ok {tid wid : String} {s s' : Store}
    (h : assignTaskToWorker tid wid s = .ok s') (hinv : Inv s) : Inv s' := by
  obtain ⟨task, worker, hft, hgw, hav, hcap, rfl⟩ := assignTaskToWorker_ok_elim h
  unfold assignCommit
  rcases hassigned : task.assignedTo with _ | prev
  · refine inv_commit_core hft hgw hinv rfl rfl rfl ?_
    intro w1 hw1
    have hcond : ¬ task.assignedTo = some w1.id := by rw [hassigned]; simp
    rw [if_neg hcond, hinv.hoursEq w1 hw1]
    ring
  · dsimp only
    by_cases hprev : (prev == "") = true
    · rw [if_pos hprev]
      have hprevstr : prev = "" := by simpa using hprev
      refine inv_commit_core hft hgw hinv rfl rfl rfl ?_
      intro w1 hw1
      have hne : w1.id ≠ "" := by
        obtain ⟨k, _, _, hk3⟩ := hinv.workerIds w1 hw1
        rw [hk3]; exact workerIdStr_ne_empty k
      have hcond : ¬ task.assignedTo = some w1.id := by
        rw [hassigned, hprevstr]
        intro hc
        exact hne (Option.some.inj hc).symm
      rw [if_neg hcond, hinv.hoursEq w1 hw1]
      ring
    · rw [if_neg hprev]
      refine inv_commit_core hft hgw hinv rfl rfl
        (map_updateFirst_eq (p := fun w : Worker => w.id == prev)
          (f := fun w => { w with totalAssignedHours :=
            w.totalAssignedHours - task.timeEstimate })
          (g := Worker.id) (fun _ => rfl) s.workers) ?_
      intro w1 hw1
      have hw1b : w1 ∈ updateFirst (fun w => w.id == prev)
          (fun w => { w with totalAssignedHours := w.totalAssignedHours - task.timeEstimate })
          s.workers := hw1
      rcases mem_updateWorker_cases hinv.nodupIds hw1b with ⟨hm, hne⟩ | ⟨pw, hfoundp, rfl⟩
      · have hcond : ¬ task.assignedTo = some w1.id := by
          rw [hassigned]
          intro hc
          exact hne (Option.some.inj hc).symm
        rw [if_neg hcond, hinv.hoursEq w1 hm]
        ring
      · have hpwid : pw.id = prev := by simpa using List.find?_some hfoundp
        have hpwmem : pw ∈ s.workers := List.mem_of_find?_eq_some hfoundp
        have hcond : task.assignedTo = some pw.id := by rw [hassigned, hpwid]
        show pw.totalAssignedHours - task.timeEstimate =
          hoursFor pw.id s.tasks - (if task.assignedTo = some pw.id then task.timeEstimate else 0)
        rw [if_pos hcond, hinv.hoursEq pw hpwmem]

theorem inv_completeTask_ok {tid : String} {s s' : Store}
    (h : completeTask tid s = .ok s') (hinv : Inv s) : Inv s' := by
  unfold completeTask at h
  rcases hft : findTask s tid with _ | task
  · rw [hft] at h; simp at h
  rw [hft] at h
  simp only [Except.ok.injEq] at h
  rw [← h]
  constructor
  · exact hinv.workerPos
  · exact hinv.workerIds
  · exact hinv.nodupIds
  · intro t ht wid hass
    rw [updateTask_tasks] at ht
    rcases mem_updateFirst ht with h1 | ⟨x, hx, _, rfl⟩
    · exact hinv.assignedExists t h1 wid hass
    · exact hinv.assignedExists x hx wid hass
  · intro w hw
    rw [updateTask_workers] at hw
    rw [updateTask_tasks, hoursFor_updateTask_found _ hft w.id]
    rw [hinv.hoursEq w hw]
    by_cases hcase : task.assignedTo = some w.id
    · rw [if_pos hcase]
      ring
    · rw [if_neg hcase]
      ring

theorem inv_emptyStore : Inv emptyStore := by
  constructor <;> simp [emptyStore]

theorem inv_applyOp {s : Store} (hinv : Inv s) (op : Op) : Inv (applyOp s op) := by
  cases op with
  | addWorker n => exact inv_addWorker n hinv
  | addTask d p e dl ca => exact inv_addTask d p e dl ca hinv
  | setAvailability i a =>
    show Inv (match updateWorkerAvailability i a s with | .ok s1 => s1 | .error _ => s)
    cases hres : updateWorkerAvailability i a s with
    | error e => exact hinv
    | ok s1 => exact inv_setAvailability_ok hres hinv
  | assign t w =>
    show Inv (match assignTaskToWorker t w s with | .ok s1 => s1 | .error _ => s)
    cases hres : assignTaskToWorker t w s with
    | error e => exact hinv
    | ok s1 => exact inv_assignTask_ok hres hinv
  | unassign t =>
    show Inv (match unassignTask t s with | .ok s1 => s1 | .error _ => s)
    cases hres : unassignTask t s with
    | error e => exact hinv
    | ok s1 => exact inv_unassignTask_ok hres hinv
  | complete t =>
    show Inv (match completeTask t s with | .ok s1 => s1 | .error _ => s)
    cases hres : completeTask t s with
    | error e => exact hinv
    | ok s1 => exact inv_completeTask_ok hres hinv

theorem inv_foldl (ops : List Op) : ∀ s : Store, Inv s → Inv (ops.foldl applyOp s) := by
  induction ops with
  | nil => intro s hs; exact hs
  | cons op ops ih => intro s hs; exact ih (applyOp s op) (inv_applyOp hs op)

theorem inv_run (ops : List Op) : Inv (run ops) :=
  inv_foldl ops emptyStore inv_emptyStore

theorem eq_of_mem_of_find?_id {ws : List Worker} {wid : String} {w x : Worker}
    (hnd : (ws.map Worker.id).Nodup) (hfind : ws.find? (fun w0 => w0.id == wid) = some w)
    (hx : x ∈ ws) (hxid : x.id = wid) : x = w := by
  obtain ⟨W₁, W₂, hdec, hnomatch, hpa, _⟩ := find?_decomp hfind
  rw [hdec] at hx
  rcases List.mem_append.mp hx with h1 | h1
  · have := hnomatch x h1
    rw [hxid] at this
    simp at this
  · rcases List.mem_cons.mp h1 with rfl | h2
    · rfl
    · exfalso
      have hwid : w.id = wid := by simpa using hpa
      rw [hdec, List.map_append, List.map_cons] at hnd
      have hnd2 : (w.id :: W₂.map Worker.id).Nodup :=
        hnd.sublist ((List.map Worker.id W₁).sublist_append_right _)
      rw [List.nodup_cons] at hnd2
      exact hnd2.1 (by rw [hwid, ← hxid]; exact List.mem_map_of_mem Worker.id h2)

theorem bounds_commit_core {tid wid : String} {task : Task} {s s1 : Store}
    (hft : findTask s tid = some task)
    (h1tasks : s1.tasks = s.tasks)
    (hest : 0 ≤ task.timeEstimate)
    (htasks : ∀ t ∈ s.tasks, 0 ≤ t.timeEstimate)
    (h1bounds : ∀ w1 ∈ s1.workers,
      0 ≤ w1.totalAssignedHours ∧ w1.totalAssignedHours ≤ MAX_WORK_HOURS_PER_DAY)
    (hstar : ∀ x ∈ s1.workers, x.id = wid →
      x.totalAssignedHours + task.timeEstimate ≤ MAX_WORK_HOURS_PER_DAY) :
    StoreBounds (updateWorker (updateTask s1 tid (fun t => { t with assignedTo := some wid })) wid
      (fun w => { w with totalAssignedHours := w.totalAssignedHours + task.timeEstimate })) := by
  constructor
  · intro t ht
    have ht2 : t ∈ updateFirst (fun t => t.id == tid)
        (fun t => { t with assignedTo := some wid }) s.tasks := by
      rw [← h1tasks]; exact ht
    rcases mem_updateFirst ht2 with h1 | ⟨t0, ht0, _, rfl⟩
    · exact htasks t h1
    · exact htasks t0 ht0
  · intro w hw
    have hw2 : w ∈ updateFirst (fun w => w.id == wid)
        (fun w => { w with totalAssignedHours := w.totalAssignedHours + task.timeEstimate })
        s1.workers := hw
    rcases mem_updateFirst hw2 with h1 | ⟨x, hx, hpx, rfl⟩
    · exact h1bounds w h1
    · have hxid : x.id = wid := by simpa using hpx
      have h1 := h1bounds x hx
      have h2 := hstar x hx hxid
      constructor
      · show 0 ≤ x.totalAssignedHours + task.timeEstimate
        omega
      · show x.totalAssignedHours + task.timeEstimate ≤ MAX_WORK_HOURS_PER_DAY
        omega

theorem bounds_assignTask_ok {tid wid : String} {s s' : Store}
    (h : assignTaskToWorker tid wid s = .ok s') (hinv : Inv s) (hb : StoreBounds s) :
    StoreBounds s' := by
  obtain ⟨task, worker, hft, hgw, hav, hcap, rfl⟩ := assignTaskToWorker_ok_elim h
  have htmem : task ∈ s.tasks := List.mem_of_find?_eq_some hft
  have hest : 0 ≤ task.timeEstimate := hb.1 task htmem
  unfold assignCommit
  rcases hassigned : task.assignedTo with _ | prev
  · refine bounds_commit_core hft rfl hest hb.1 hb.2 ?_
    intro x hx hxid
    obtain rfl : x = worker := eq_of_mem_of_find?_id hinv.nodupIds hgw hx hxid
    exact hcap
  · dsimp only
    by_cases hprev : (prev == "") = true
    · rw [if_pos hprev]
      refine bounds_commit_core hft rfl hest hb.1 hb.2 ?_
      intro x hx hxid
      obtain rfl : x = worker := eq_of_mem_of_find?_id hinv.nodupIds hgw hx hxid
      exact hcap
    · rw [if_neg hprev]
      have hboundsdec : ∀ w1 ∈ (updateWorker s prev (fun w =>
          { w with totalAssignedHours := w.totalAssignedHours - task.timeEstimate })).workers,
          0 ≤ w1.totalAssignedHours ∧ w1.totalAssignedHours ≤ MAX_WORK_HOURS_PER_DAY := by
        intro w1 hw1
        have hw1b : w1 ∈ updateFirst (fun w => w.id == prev)
            (fun w => { w with totalAssignedHours := w.totalAssignedHours - task.timeEstimate })
            s.workers := hw1
        rcases mem_updateFirst hw1b with h1 | ⟨pw, hpw, hppw, rfl⟩
        · exact hb.2 w1 h1
        · have hpwid : pw.id = prev := by simpa using hppw
          have hple := contrib_le_hoursFor htmem (by rw [hassigned]) hb.1
          have hpeq := hinv.hoursEq pw hpw
          rw [hpwid] at hpeq
          have hpb := hb.2 pw hpw
          constructor
          · show 0 ≤ pw.totalAssignedHours - task.timeEstimate
            omega
          · show pw.totalAssignedHours - task.timeEstimate ≤ MAX_WORK_HOURS_PER_DAY
            omega
      refine bounds_commit_core hft rfl hest hb.1 hboundsdec ?_
      intro x hx hxid
      have hx2 : x ∈ updateFirst (fun w => w.id == prev)
          (fun w => { w with totalAssignedHours := w.totalAssignedHours - task.timeEstimate })
          s.workers := hx
      rcases mem_updateFirst hx2 with h1 | ⟨pw, hpw, hppw, rfl⟩
      · obtain rfl : x = worker := eq_of_mem_of_find?_id hinv.nodupIds hgw h1 hxid
        exact hcap
      · show pw.totalAssignedHours - task.timeEstimate + task.timeEstimate ≤
          MAX_WORK_HOURS_PER_DAY
        have h8 := hb.2 pw hpw
        omega

theorem bounds_unassignTask_ok {tid : String} {s s' : Store}
    (h : unassignTask tid s = .ok s') (hinv : Inv s) (hb : StoreBounds s) :
    StoreBounds s' := by
  unfold unassignTask at h
  split at h
  · simp at h
  rename_i task hft
  split at h
  case h_2 =>
    simp only [Except.ok.injEq] at h
    rw [← h]; exact hb
  rename_i wid hassigned
  split at h
  · simp only [Except.ok.injEq] at h
    rw [← h]; exact hb
  simp only [Except.ok.injEq] at h
  rw [← h]
  have htmem : task ∈ s.tasks := List.mem_of_find?_eq_some hft
  constructor
  · intro t ht
    have ht2 : t ∈ updateFirst (fun t => t.id == tid)
        (fun t => { t with assignedTo := none }) s.tasks := ht
    rcases mem_updateFirst ht2 with h1 | ⟨t0, ht0, _, rfl⟩
    · exact hb.1 t h1
    · exact hb.1 t0 ht0
  · intro w hw
    have hw2 : w ∈ updateFirst (fun w => w.id == wid)
        (fun w => { w with totalAssignedHours := w.totalAssignedHours - task.timeEstimate })
        s.workers := hw
    rcases mem_updateFirst hw2 with h1 | ⟨x, hx, hpx, rfl⟩
    · exact hb.2 w h1
    · have hxid : x.id = wid := by simpa using hpx
      have hle := contrib_le_hoursFor htmem (by rw [hassigned]) hb.1
      have hest : 0 ≤ task.timeEstimate := hb.1 task htmem
      have heq := hinv.hoursEq x hx
      rw [hxid] at heq
      have hxb := hb.2 x hx
      constructor
      · show 0 ≤ x.totalAssignedHours - task.timeEstimate
        omega
      · show x.totalAssignedHours - task.timeEstimate ≤ MAX_WORK_HOURS_PER_DAY
        omega

theorem bounds_applyOp {s : Store} (hinv : Inv s) (hb : StoreBounds s) (op : Op)
    (hop : opEstNonneg op) : StoreBounds (applyOp s op) := by
  cases op with
  | addWorker n =>
    constructor
    · intro t ht
      exact hb.1 t ht
    · intro w hw
      rcases List.mem_append.mp hw with h1 | h1
      · exact hb.2 w h1
      · obtain rfl : w = (⟨workerIdStr s.nextWorkerId, n, true, 0⟩ : Worker) :=
          List.mem_singleton.mp h1
        refine ⟨le_refl 0, ?_⟩
        show (0 : Int) ≤ MAX_WORK_HOURS_PER_DAY
        norm_num [MAX_WORK_HOURS_PER_DAY]
  | addTask d p e dl ca =>
    constructor
    · intro t ht
      rcases List.mem_append.mp ht with h1 | h1
      · exact hb.1 t h1
      · obtain rfl : t = (⟨taskIdStr s.nextTaskId, d, p, e, dl, none, ca, false⟩ : Task) :=
          List.mem_singleton.mp h1
        exact hop
    · intro w hw
      exact hb.2 w hw
  | setAvailability i a =>
    show StoreBounds (match updateWorkerAvailability i a s with | .ok s1 => s1 | .error _ => s)
    cases hres : updateWorkerAvailability i a s with
    | error e => exact hb
    | ok s1 =>
      unfold updateWorkerAvailability at hres
      rcases hg : getWorker s i with _ | w0
      · rw [hg] at hres; simp at hres
      rw [hg] at hres
      simp only [Except.ok.injEq] at hres
      rw [← hres]
      constructor
      · intro t ht
        exact hb.1 t ht
      · intro w hw
        have hw2 : w ∈ updateFirst (fun w => w.id == i)
            (fun w => { w with availability := a }) s.workers := hw
        rcases mem_updateFirst hw2 with h1 | ⟨x, hx, _, rfl⟩
        · exact hb.2 w h1
        · exact hb.2 x hx
  | assign t w =>
    show StoreBounds (match assignTaskToWorker t w s with | .ok s1 => s1 | .error _ => s)
    cases hres : assignTaskToWorker t w s with
    | error e => exact hb
    | ok s1 => exact bounds_assignTask_ok hres hinv hb
  | unassign t =>
    show StoreBounds (match unassignTask t s with | .ok s1 => s1 | .error _ => s)
    cases hres : unassignTask t s with
    | error e => exact hb
    | ok s1 => exact bounds_unassignTask_ok hres hinv hb
  | complete t =>
    show StoreBounds (match completeTask t s with | .ok s1 => s1 | .error _ => s)
    cases hres : completeTask t s with
    | error e => exact hb
    | ok s1 =>
      unfold completeTask at hres
      rcases hft : findTask s t with _ | task
      · rw [hft] at hres; simp at hres
      rw [hft] at hres
      simp only [Except.ok.injEq] at hres
      rw [← hres]
      constructor
      · intro t2 ht2
        have ht2b : t2 ∈ updateFirst (fun u => u.id == t)
            (fun u => { u with completed := true }) s.tasks := ht2
        rcases mem_updateFirst ht2b with h1 | ⟨t0, ht0, _, rfl⟩
        · exact hb.1 t2 h1
        · exact hb.1 t0 ht0
      · intro w2 hw2
        exact hb.2 w2 hw2

theorem bounds_emptyStore : StoreBounds emptyStore := by
  constructor <;> simp [emptyStore]

theorem bounds_foldl (ops : List Op) :
    ∀ s : Store, Inv s → StoreBounds s → (∀ op ∈ ops, opEstNonneg op) →
      StoreBounds (ops.foldl applyOp s) := by
  induction ops with
  | nil => intro s _ hb _; exact hb
  | cons op ops ih =>
    intro s hs hb hops
    exact ih (applyOp s op) (inv_applyOp hs op)
      (bounds_applyOp hs hb op (hops op (List.mem_cons_self op ops)))
      (fun o ho => hops o (List.mem_cons_of_mem op ho))

theorem bounds_run (ops : List Op) (hops : ∀ op ∈ ops, opEstNonneg op) :
    StoreBounds (run ops) :=
  bounds_foldl ops emptyStore inv_emptyStore bounds_emptyStore hops

theorem assignTaskToWorker_eq {tid wid : String} {s : Store} {t : Task} {w : Worker}
    (ht : findTask s tid = some t) (hw : getWorker s wid = some w) :
    assignTaskToWorker tid wid s =
      if w.availability = false then .error .workerUnavailable
      else if MAX_WORK_HOURS_PER_DAY < w.totalAssignedHours + t.timeEstimate then
        .error .capacityExceeded
      else .ok (assignCommit tid wid t s) := by
  unfold assignTaskToWorker
  rw [ht, hw]

theorem updateFirst_length {α : Type} (p : α → Bool) (f : α → α) :
    ∀ l : List α, (updateFirst p f l).length = l.length := by
  intro l
  induction l with
  | nil => rfl
  | cons x xs ih =>
    by_cases hx : p x
    · simp [updateFirst, hx]
    · simp [updateFirst, hx, ih]

theorem updateFirst_getElem? {α : Type} (p : α → Bool) (f : α → α) :
    ∀ (l : List α) (i : Nat), (updateFirst p f l)[i]? = l[i]? ∨
      ∃ x, l[i]? = some x ∧ (updateFirst p f l)[i]? = some (f x) := by
  intro l
  induction l with
  | nil => intro i; left; rfl
  | cons x xs ih =>
    intro i
    by_cases hx : p x
    · rw [updateFirst, if_pos hx]
      cases i with
      | zero => exact Or.inr ⟨x, by simp, by simp⟩
      | succ j => left; simp
    · rw [updateFirst, if_neg hx]
      cases i with
      | zero => left; simp
      | succ j =>
        rcases ih j with h1 | ⟨y, hy1, hy2⟩
        · left; simpa using h1
        · right; exact ⟨y, by simpa using hy1, by simpa using hy2⟩

/-- C1: for a task and a worker both present in the stores, with the
worker available, `assignTaskToWorker` fails with the capacity error
(`CapacityError`) exactly when `totalAssignedHours + timeEstimate`
strictly exceeds `MAX_WORK_HOURS_PER_DAY` (= 8); when the sum is exactly
8 the assignment succeeds. -/
theorem c1_assign_capacity_iff {s : Store} {tid wid : String} {t : Task} {w : Worker}
    (ht : findTask s tid = some t) (hw : getWorker s wid = some w)
    (hav : w.availability = true) :
    (assignTaskToWorker tid wid s = .error .capacityExceeded ↔
      MAX_WORK_HOURS_PER_DAY < w.totalAssignedHours + t.timeEstimate) ∧
    (w.totalAssignedHours + t.timeEstimate = MAX_WORK_HOURS_PER_DAY →
      ∃ s', assignTaskToWorker tid wid s = .ok s') := by
  rw [assignTaskToWorker_eq ht hw, hav]
  rw [if_neg (by simp)]
  constructor
  · by_cases hc : MAX_WORK_HOURS_PER_DAY < w.totalAssignedHours + t.timeEstimate
    · rw [if_pos hc]
      exact ⟨fun _ => hc, fun _ => rfl⟩
    · rw [if_neg hc]
      exact ⟨fun h2 => by simp at h2, fun h2 => absurd h2 hc⟩
  · intro heq
    rw [if_neg (by omega)]
    exact ⟨assignCommit tid wid t s, rfl⟩

/-- Witness for C1 on the concrete store `sCap` (Alice at 6 hours, a
2-hour task): the capacity test is exactly `8 < 6 + 2`, and since
`6 + 2 = 8` the assignment succeeds. -/
theorem c1_witness :
    (assignTaskToWorker "T001" "W001" sCap = .error .capacityExceeded ↔
      MAX_WORK_HOURS_PER_DAY <
        (⟨"W001", "Alice", true, 6⟩ : Worker).totalAssignedHours +
          (⟨"T001", "Mop floor", .high, 2, "Jan 5", none, "t0", false⟩ : Task).timeEstimate) ∧
    ((⟨"W001", "Alice", true, 6⟩ : Worker).totalAssignedHours +
        (⟨"T001", "Mop floor", .high, 2, "Jan 5", none, "t0", false⟩ : Task).timeEstimate =
          MAX_WORK_HOURS_PER_DAY →
      ∃ s', assignTaskToWorker "T001" "W001" sCap = .ok s') :=
  c1_assign_capacity_iff (by decide) (by decide) (by decide)

/-- C2 (amended): after every engine trace, each worker's
`totalAssignedHours` equals the sum of `timeEstimate` over **all** tasks
assigned to it, the completed ones included (the claim's restriction to
`completed = false` fails on the code, see `c2_counterexample`:
`completeTask` does not release the hours). -/
theorem c2_hours_eq_total_assigned (ops : List Op) :
    ∀ w ∈ (run ops).workers, hoursFor w.id (run ops).tasks = w.totalAssignedHours :=
  fun w hw => ((inv_run ops).hoursEq w hw).symm

/-- Witness for C2 (amended) on the trace `exOps`. -/
theorem c2_witness :
    hoursFor (⟨"W001", "Alice", true, 2⟩ : Worker).id (run exOps).tasks =
      (⟨"W001", "Alice", true, 2⟩ : Worker).totalAssignedHours :=
  c2_hours_eq_total_assigned exOps ⟨"W001", "Alice", true, 2⟩ (by decide)

/-- C2 counterexample: after the engine trace `exOps` (add Alice, add a
2-hour task, assign it to her, complete it), Alice still carries 2
assigned hours while the sum of estimates over her *not-completed*
assigned tasks is 0 — the invariant as claimed (restricted to
`completed = false`) does not hold between operations. -/
theorem c2_counterexample :
    ∃ w ∈ (run exOps).workers,
      activeHoursFor w.id (run exOps).tasks ≠ w.totalAssignedHours := by decide

/-- C3: reassigning a task bound to worker A onto a different worker B
succeeds exactly when B is available and B's hours plus the estimate stay
within the ceiling (the capacity check is applied only against B — A's
fields do not occur in the success condition), and on success A loses
exactly the task's estimate, B gains exactly it, and the task keeps its
`timeEstimate`. -/
theorem c3_reassign_moves_hours {s : Store} {tid aid bid : String} {t : Task} {A B : Worker}
    (ht : findTask s tid = some t) (hassigned : t.assignedTo = some aid) (haid : aid ≠ "")
    (hA : getWorker s aid = some A) (hB : getWorker s bid = some B) (hne : aid ≠ bid)
    (hc : t.completed = false) :
    ((∃ s', assignTaskToWorker tid bid s = .ok s') ↔
      (B.availability = true ∧
        B.totalAssignedHours + t.timeEstimate ≤ MAX_WORK_HOURS_PER_DAY)) ∧
    ∀ s', assignTaskToWorker tid bid s = .ok s' →
      getWorker s' aid =
        some { A with totalAssignedHours := A.totalAssignedHours - t.timeEstimate } ∧
      getWorker s' bid =
        some { B with totalAssignedHours := B.totalAssignedHours + t.timeEstimate } ∧
      findTask s' tid = some { t with assignedTo := some bid } := by
  rw [assignTaskToWorker_eq ht hB]
  have hcommit : ∀ x : String,
      (assignCommit tid bid t s).workers = updateFirst (fun w => w.id == bid)
        (fun w => { w with totalAssignedHours := w.totalAssignedHours + t.timeEstimate })
        (updateFirst (fun w => w.id == aid)
          (fun w => { w with totalAssignedHours := w.totalAssignedHours - t.timeEstimate })
          s.workers) := by
    intro _
    unfold assignCommit
    rw [hassigned]
    dsimp only
    rw [if_neg (by simpa using haid)]
    rfl
  constructor
  · constructor
    · intro ⟨s', hs'⟩
      by_cases hav : B.availability = false
      · rw [if_pos hav] at hs'; simp at hs'
      · rw [if_neg hav] at hs'
        by_cases hcap : MAX_WORK_HOURS_PER_DAY < B.totalAssignedHours + t.timeEstimate
        · rw [if_pos hcap] at hs'; simp at hs'
        · exact ⟨by simpa using hav, by omega⟩
    · rintro ⟨hav, hcap⟩
      rw [hav, if_neg (by simp), if_neg (by omega)]
      exact ⟨assignCommit tid bid t s, rfl⟩
  · intro s' hs'
    by_cases hav : B.availability = false
    · rw [if_pos hav] at hs'; simp at hs'
    rw [if_neg hav] at hs'
    by_cases hcap : MAX_WORK_HOURS_PER_DAY < B.totalAssignedHours + t.timeEstimate
    · rw [if_pos hcap] at hs'; simp at hs'
    rw [if_neg hcap] at hs'
    simp only [Except.ok.injEq] at hs'
    rw [← hs']
    have hA2 : s.workers.find? (fun w => w.id == aid) = some A := hA
    have hB2 : s.workers.find? (fun w => w.id == bid) = some B := hB
    have ht2 : s.tasks.find? (fun u => u.id == tid) = some t := ht
    refine ⟨?_, ?_, ?_⟩
    · show ((assignCommit tid bid t s).workers.find? (fun w => w.id == aid)) = _
      rw [hcommit aid,
        find?_updateFirst_of_ne
          (p := fun w : Worker => w.id == bid) (q := fun w : Worker => w.id == aid)
          (f := fun w : Worker =>
            { w with totalAssignedHours := w.totalAssignedHours + t.timeEstimate })
          (fun _ => rfl)
          (fun x hx => by
            have h2 : x.id = bid := by simpa using hx
            have h3 : ¬ bid = aid := fun hcon => hne hcon.symm
            simp [h2, h3]),
        find?_updateFirst_self
          (p := fun w : Worker => w.id == aid)
          (f := fun w : Worker =>
            { w with totalAssignedHours := w.totalAssignedHours - t.timeEstimate })
          (fun _ => rfl), hA2]
      rfl
    · show ((assignCommit tid bid t s).workers.find? (fun w => w.id == bid)) = _
      rw [hcommit bid,
        find?_updateFirst_self
          (p := fun w : Worker => w.id == bid)
          (f := fun w : Worker =>
            { w with totalAssignedHours := w.totalAssignedHours + t.timeEstimate })
          (fun _ => rfl),
        find?_updateFirst_of_ne
          (p := fun w : Worker => w.id == aid) (q := fun w : Worker => w.id == bid)
          (f := fun w : Worker =>
            { w with totalAssignedHours := w.totalAssignedHours - t.timeEstimate })
          (fun _ => rfl)
          (fun x hx => by
            have h2 : x.id = aid := by simpa using hx
            simp [h2, hne]),
        hB2]
      rfl
    · show ((assignCommit tid bid t s).tasks.find? (fun u => u.id == tid)) = _
      have : (assignCommit tid bid t s).tasks =
          updateFirst (fun u => u.id == tid) (fun u => { u with assignedTo := some bid })
            s.tasks := by
        unfold assignCommit
        rw [hassigned]
        dsimp only
        rw [if_neg (by simpa using haid)]
        rfl
      rw [this, find?_updateFirst_self (p := fun u : Task => u.id == tid)
        (f := fun u : Task => { u with assignedTo := some bid })
        (fun _ => rfl), ht2]
      rfl

/-- Witness for C3 on the concrete store `sRe`: the task moves from Alice
(2 → 0 hours) to Bob (3 → 5 hours). -/
theorem c3_witness :
    ((∃ s', assignTaskToWorker "T001" "W002" sRe = .ok s') ↔
      ((⟨"W002", "Bob", true, 3⟩ : Worker).availability = true ∧
        (⟨"W002", "Bob", true, 3⟩ : Worker).totalAssignedHours +
          (⟨"T001", "Mop floor", .high, 2, "Jan 5", some "W001", "t0", false⟩ : Task).timeEstimate ≤
            MAX_WORK_HOURS_PER_DAY)) ∧
    ∀ s', assignTaskToWorker "T001" "W002" sRe = .ok s' →
      getWorker s' "W001" =
        some { (⟨"W001", "Alice", true, 2⟩ : Worker) with
          totalAssignedHours := (⟨"W001", "Alice", true, 2⟩ : Worker).totalAssignedHours -
            (⟨"T001", "Mop floor", .high, 2, "Jan 5", some "W001", "t0", false⟩ : Task).timeEstimate } ∧
      getWorker s' "W002" =
        some { (⟨"W002", "Bob", true, 3⟩ : Worker) with
          totalAssignedHours := (⟨"W002", "Bob", true, 3⟩ : Worker).totalAssignedHours +
            (⟨"T001", "Mop floor", .high, 2, "Jan 5", some "W001", "t0", false⟩ : Task).timeEstimate } ∧
      findTask s' "T001" =
        some { (⟨"T001", "Mop floor", .high, 2, "Jan 5", some "W001", "t0", false⟩ : Task) with
          assignedTo := some "W002" } :=
  c3_reassign_moves_hours (by decide) (by decide) (by decide) (by decide) (by decide)
    (by decide) (by decide)

/-- C4 (amended): `addTask` performs no input validation and never fails:
for every input (empty description, non-positive estimate or unparseable
deadline included) it returns a task with `assignedTo = null` and
`completed = false` and appends it to the store.  (The validation the
claim describes lives in the Assign page, which checks description,
deadline and estimate before calling `addTask`.) -/
theorem c4_addTask_total (d : String) (p : Priority) (e : Int) (dl ca : String) (s : Store) :
    (addTask d p e dl ca s).1.assignedTo = none ∧
    (addTask d p e dl ca s).1.completed = false ∧
    (addTask d p e dl ca s).1.description = d ∧
    (addTask d p e dl ca s).1.priority = p ∧
    (addTask d p e dl ca s).1.timeEstimate = e ∧
    (addTask d p e dl ca s).1.deadline = dl ∧
    (addTask d p e dl ca s).2.tasks = s.tasks ++ [(addTask d p e dl ca s).1] :=
  ⟨rfl, rfl, rfl, rfl, rfl, rfl, rfl⟩

/-- C4 counterexample: with an empty description, a negative
`timeEstimate` and a nonsense deadline, `addTask` does not fail with any
validation error — it stores the malformed task. -/
theorem c4_counterexample :
    (addTask "" .high (-1) "not-a-date" "t0" emptyStore).2.tasks =
      [⟨"T001", "", Priority.high, -1, "not-a-date", none, "t0", false⟩] := by decide

/-- C5: completing an existing task always succeeds (also when the task is
already completed or was never assigned), sets its `completed` flag, and
changes nothing else: the workers (hence every `totalAssignedHours`) are
untouched, the task keeps its `assignedTo`, and every other task is
unchanged. -/
theorem c5_complete_frame {s : Store} {tid : String} {t : Task}
    (ht : findTask s tid = some t) :
    ∃ s', completeTask tid s = .ok s' ∧
      s'.workers = s.workers ∧
      findTask s' tid = some { t with completed := true } ∧
      s'.tasks.length = s.tasks.length ∧
      ∀ i : Nat, s'.tasks[i]? = s.tasks[i]? ∨
        ∃ u, s.tasks[i]? = some u ∧ s'.tasks[i]? = some { u with completed := true } := by
  refine ⟨updateTask s tid (fun u => { u with completed := true }), ?_, rfl, ?_, ?_, ?_⟩
  · unfold completeTask
    rw [ht]
  · show ((updateTask s tid _).tasks.find? (fun u => u.id == tid)) = _
    have ht2 : s.tasks.find? (fun u => u.id == tid) = some t := ht
    rw [updateTask_tasks,
      find?_updateFirst_self (p := fun u : Task => u.id == tid)
        (f := fun u : Task => { u with completed := true })
        (fun _ => rfl), ht2]
    rfl
  · rw [updateTask_tasks]
    exact updateFirst_length _ _ s.tasks
  · intro i
    rw [updateTask_tasks]
    exact updateFirst_getElem? _ _ s.tasks i

/-- Witness for C5 on the concrete store `sRe`: completing the assigned
task leaves both workers (and Alice's 2 hours) untouched. -/
theorem c5_witness :
    ∃ s', completeTask "T001" sRe = .ok s' ∧
      s'.workers = sRe.workers ∧
      findTask s' "T001" =
        some { (⟨"T001", "Mop floor", .high, 2, "Jan 5", some "W001", "t0", false⟩ : Task) with
          completed := true } ∧
      s'.tasks.length = sRe.tasks.length ∧
      ∀ i : Nat, s'.tasks[i]? = sRe.tasks[i]? ∨
        ∃ u, sRe.tasks[i]? = some u ∧ s'.tasks[i]? = some { u with completed := true } :=
  c5_complete_frame (by decide)

/-- C6 (amended): provided every `addTask` in the trace carries a
nonnegative `timeEstimate` (what the spec's validation was meant to
ensure), every worker's `totalAssignedHours` stays within
`[0, MAX_WORK_HOURS_PER_DAY]` after every sequence of engine operations
starting from the empty store.  Without that proviso the code violates
the bounds, see `c6_counterexample`. -/
theorem c6_hours_bounds (ops : List Op) (hops : ∀ op ∈ ops, opEstNonneg op) :
    ∀ w ∈ (run ops).workers,
      0 ≤ w.totalAssignedHours ∧ w.totalAssignedHours ≤ MAX_WORK_HOURS_PER_DAY :=
  (bounds_run ops hops).2

/-- Witness for C6 (amended) on the trace `exOps`. -/
theorem c6_witness :
    0 ≤ (⟨"W001", "Alice", true, 2⟩ : Worker).totalAssignedHours ∧
      (⟨"W001", "Alice", true, 2⟩ : Worker).totalAssignedHours ≤ MAX_WORK_HOURS_PER_DAY :=
  c6_hours_bounds exOps (by decide) ⟨"W001", "Alice", true, 2⟩ (by decide)

/-- C6 counterexample: the engine trace `exBadOps` (add Alice, add a task
with `timeEstimate = -3` — accepted, since `addTask` does not validate —
and assign it) drives Alice's `totalAssignedHours` to −3 < 0. -/
theorem c6_counterexample :
    ∃ w ∈ (run exBadOps).workers, w.totalAssignedHours < 0 := by decide

/-- C10: re-invoking `assignTaskToWorker` on a task already bound to the
same available worker fails with the capacity error exactly when
`totalAssignedHours + timeEstimate > 8` — the check runs before the
previous assignment is credited, so the estimate is effectively counted
twice — and when it succeeds the worker's `totalAssignedHours` is
unchanged (and the task stays bound to it). -/
theorem c10_reassign_same_worker {s : Store} {tid wid : String} {t : Task} {w : Worker}
    (ht : findTask s tid = some t) (hassigned : t.assignedTo = some wid) (hwid : wid ≠ "")
    (hw : getWorker s wid = some w) (hav : w.availability = true) :
    (assignTaskToWorker tid wid s = .error .capacityExceeded ↔
      MAX_WORK_HOURS_PER_DAY < w.totalAssignedHours + t.timeEstimate) ∧
    ∀ s', assignTaskToWorker tid wid s = .ok s' →
      getWorker s' wid = some w ∧
      findTask s' tid = some { t with assignedTo := some wid } := by
  rw [assignTaskToWorker_eq ht hw, hav]
  rw [if_neg (by simp)]
  constructor
  · by_cases hc : MAX_WORK_HOURS_PER_DAY < w.totalAssignedHours + t.timeEstimate
    · rw [if_pos hc]
      exact ⟨fun _ => hc, fun _ => rfl⟩
    · rw [if_neg hc]
      exact ⟨fun h2 => by simp at h2, fun h2 => absurd h2 hc⟩
  · intro s' hs'
    by_cases hc : MAX_WORK_HOURS_PER_DAY < w.totalAssignedHours + t.timeEstimate
    · rw [if_pos hc] at hs'; simp at hs'
    rw [if_neg hc] at hs'
    simp only [Except.ok.injEq] at hs'
    rw [← hs']
    have hw2 : s.workers.find? (fun w0 => w0.id == wid) = some w := hw
    have ht2 : s.tasks.find? (fun u => u.id == tid) = some t := ht
    have hcw : (assignCommit tid wid t s).workers = updateFirst (fun w0 => w0.id == wid)
        (fun w0 => { w0 with totalAssignedHours := w0.totalAssignedHours + t.timeEstimate })
        (updateFirst (fun w0 => w0.id == wid)
          (fun w0 => { w0 with totalAssignedHours := w0.totalAssignedHours - t.timeEstimate })
          s.workers) := by
      unfold assignCommit
      rw [hassigned]
      dsimp only
      rw [if_neg (by simpa using hwid)]
      rfl
    constructor
    · show ((assignCommit tid wid t s).workers.find? (fun w0 => w0.id == wid)) = _
      rw [hcw,
        find?_updateFirst_self
          (p := fun w0 : Worker => w0.id == wid)
          (f := fun w0 : Worker =>
            { w0 with totalAssignedHours := w0.totalAssignedHours + t.timeEstimate })
          (fun _ => rfl),
        find?_updateFirst_self
          (p := fun w0 : Worker => w0.id == wid)
          (f := fun w0 : Worker =>
            { w0 with totalAssignedHours := w0.totalAssignedHours - t.timeEstimate })
          (fun _ => rfl),
        hw2]
      show some (⟨w.id, w.name, w.availability,
        w.totalAssignedHours - t.timeEstimate + t.timeEstimate⟩ : Worker) = some w
      rw [sub_add_cancel]
    · show ((assignCommit tid wid t s).tasks.find? (fun u => u.id == tid)) = _
      have : (assignCommit tid wid t s).tasks =
          updateFirst (fun u => u.id == tid) (fun u => { u with assignedTo := some wid })
            s.tasks := by
        unfold assignCommit
        rw [hassigned]
        dsimp only
        rw [if_neg (by simpa using hwid)]
        rfl
      rw [this, find?_updateFirst_self (p := fun u : Task => u.id == tid)
        (f := fun u : Task => { u with assignedTo := some wid })
        (fun _ => rfl), ht2]
      rfl

/-- Witness for C10 on `sRe` (Alice available at 2 hours, the 2-hour task
already hers): the double-counted capacity test is `8 < 2 + 2`, it
passes, and her tally is unchanged. -/
theorem c10_witness :
    (assignTaskToWorker "T001" "W001" sRe = .error .capacityExceeded ↔
      MAX_WORK_HOURS_PER_DAY <
        (⟨"W001", "Alice", true, 2⟩ : Worker).totalAssignedHours +
          (⟨"T001", "Mop floor", .high, 2, "Jan 5", some "W001", "t0", false⟩ : Task).timeEstimate) ∧
    ∀ s', assignTaskToWorker "T001" "W001" sRe = .ok s' →
      getWorker s' "W001" = some (⟨"W001", "Alice", true, 2⟩ : Worker) ∧
      findTask s' "T001" =
        some { (⟨"T001", "Mop floor", .high, 2, "Jan 5", some "W001", "t0", false⟩ : Task) with
          assignedTo := some "W001" } :=
  c10_reassign_same_worker (by decide) (by decide) (by decide) (by decide) (by decide)

theorem taskLe_iff (dateTime : String → Int) (a b : Task) :
    taskLe dateTime a b ↔ specPriorityOrder dateTime a b := by
  unfold taskLe cmpByPriority specPriorityOrder
  simp only
  split_ifs <;> constructor <;> intro h2 <;> omega

/-- C7: `sortTasksByPriority` returns a permutation of its input (the
input itself is untouched), ordered by descending priority weight
(high 3, medium 2, low 1) with ties broken by ascending parsed deadline;
the sort is stable — for every value of the compound key, the tasks with
that key appear in their input order — and on the spec's worked example
`[{high, Jan 10}, {high, Jan 5}, {low, Jan 1}]` it returns
`[{high, Jan 5}, {high, Jan 10}, {low, Jan 1}]`. -/
theorem c7_sortByPriority (dateTime : String → Int) (tasks : List Task) :
    List.Perm (sortTasksByPriority dateTime tasks) tasks ∧
    List.Pairwise (specPriorityOrder dateTime) (sortTasksByPriority dateTime tasks) ∧
    (∀ pr dl : Int,
      (sortTasksByPriority dateTime tasks).filter
        (fun u => decide (PRIORITY_WEIGHTS u.priority = pr ∧ dateTime u.deadline = dl)) =
      tasks.filter
        (fun u => decide (PRIORITY_WEIGHTS u.priority = pr ∧ dateTime u.deadline = dl))) ∧
    sortTasksByPriority exDateTime [exSortTask1, exSortTask2, exSortTask3] =
      [exSortTask2, exSortTask1, exSortTask3] := by
  refine ⟨List.perm_insertionSort _ tasks, ?_, ?_, by decide⟩
  · have hs := List.sorted_insertionSort (taskLe dateTime) tasks
    exact List.Pairwise.imp (fun hab => (taskLe_iff dateTime _ _).mp hab) hs
  · intro pr dl
    have hperm : List.Perm
        ((sortTasksByPriority dateTime tasks).filter
          (fun u => decide (PRIORITY_WEIGHTS u.priority = pr ∧ dateTime u.deadline = dl)))
        (tasks.filter
          (fun u => decide (PRIORITY_WEIGHTS u.priority = pr ∧ dateTime u.deadline = dl))) :=
      (List.perm_insertionSort _ tasks).filter _
    have hpw : (tasks.filter
        (fun u => decide (PRIORITY_WEIGHTS u.priority = pr ∧ dateTime u.deadline = dl))).Pairwise
        (taskLe dateTime) := by
      apply List.pairwise_of_forall_mem_list
      intro a ha b hb
      have hA := List.of_mem_filter ha
      have hB := List.of_mem_filter hb
      simp only [decide_eq_true_eq] at hA hB
      rw [taskLe_iff]
      exact Or.inr ⟨by rw [hA.1, hB.1], by rw [hA.2, hB.2]⟩
    have hsub : List.Sublist
        (tasks.filter
          (fun u => decide (PRIORITY_WEIGHTS u.priority = pr ∧ dateTime u.deadline = dl)))
        (sortTasksByPriority dateTime tasks) :=
      List.sublist_insertionSort hpw (List.filter_sublist tasks)
    have hsub2 := hsub.filter
      (fun u => decide (PRIORITY_WEIGHTS u.priority = pr ∧ dateTime u.deadline = dl))
    have hself : List.filter
        (fun u : Task => decide (PRIORITY_WEIGHTS u.priority = pr ∧ dateTime u.deadline = dl))
        (tasks.filter
          (fun u => decide (PRIORITY_WEIGHTS u.priority = pr ∧ dateTime u.deadline = dl))) =
        tasks.filter
          (fun u => decide (PRIORITY_WEIGHTS u.priority = pr ∧ dateTime u.deadline = dl)) :=
      List.filter_eq_self.mpr (fun a ha => (List.mem_filter.mp ha).2)
    rw [hself] at hsub2
    exact (hsub2.eq_of_length (hperm.symm.length_eq)).symm

/-- C8: `searchTasks` returns exactly the tasks of the store whose
`description`, `id`, or `assignedTo` contains the query as a
case-insensitive substring — a task with `assignedTo = null` never
matches on that field — in their original relative order (it equals a
filter of the task list by the spec's predicate); on the store with
descriptions Clean Room 101 / Vacuum Hallway / Mop Room 202, the query
"room" returns exactly the first and third tasks in order. -/
theorem c8_search (query : String) (s : Store) :
    searchTasks query s = s.tasks.filter (specSearchMatches query) ∧
    searchTasks "room" sSearch =
      [⟨"T001", "Clean Room 101", .high, 1, "Jan 5", none, "t0", false⟩,
        ⟨"T003", "Mop Room 202", .low, 1, "Jan 5", none, "t0", false⟩] := by
  constructor
  · unfold searchTasks specSearchMatches
    apply List.filter_congr
    intro t _
    rcases ha : t.assignedTo with _ | a
    · rfl
    · by_cases hae : a = ""
      · subst hae
        by_cases hq : (lowerStr query).data = []
        · have hc : ∀ h : String, containsStr h (lowerStr query) = true := by
            intro h
            simp [containsStr, hq]
          simp [hc]
        · have h1 : containsStr (lowerStr "") (lowerStr query) = false := by
            simp only [containsStr, decide_eq_false_iff_not]
            intro hcon
            exact hq (List.eq_nil_of_infix_nil hcon)
          simp [h1]
      · have h2 : (a == "") = false := by simp [hae]
        simp [h2]
  · decide

/-- C9: the status filter (`completed` / `active` / `assigned` /
`unassigned` / `all`) and the priority filter of the tasks page commute:
applying one then the other yields the same list in either order. -/
theorem c9_filters_commute (fo : FilterOption) (pf : Option Priority) (tasks : List Task) :
    applyPriorityFilter pf (applyStatusFilter fo tasks) =
      applyStatusFilter fo (applyPriorityFilter pf tasks) := by
  have hcomm : ∀ (p q : Task → Bool) (l : List Task),
      (l.filter q).filter p = (l.filter p).filter q := by
    intro p q l
    rw [List.filter_filter, List.filter_filter]
    apply List.filter_congr
    intro a _
    rw [Bool.and_comm]
  cases fo <;> cases pf <;>
    simp only [applyStatusFilter, applyPriorityFilter] <;>
    first
      | rfl
      | apply hcomm

end HK
